import Mathlib

/-!
Shallow embedding of `src/lru/lru.go` (package `lru`): a single-threaded
LRU cache built from a doubly-linked recency list (`ll`, front = most
recently used) and a Go map `cache` from key to the list element holding
that key's entry.

Modelling choices, in correspondence with the source:

* `Cache.data : Option (List (K × V))` models the pair (`ll`, `cache`).
  `none` models the uninitialized state (`c.cache == nil`, as in a
  zero-value `Cache` or after `Clear`); every operation in the source
  tests exactly `c.cache == nil`, and `ll` and `cache` are always set to
  nil or non-nil together (`New`, `Add`'s lazy init, `Clear`).
  When `data = some l`, the list `l` is `ll` read front to back, each
  element carrying its `entry{key, value}` payload.  The Go map `cache`
  maps each key to the unique list element holding it (the map and the
  list are updated in lockstep in `Add`, `removeElement` and `Clear`),
  so the map is represented by the list itself: a key is in the map iff
  it is a key of `l`, and the element the map yields for `k` is the
  element of `l` whose entry has key `k` (unique in every reachable
  state, proved below as the Nodup invariant).  Accordingly an element
  is identified by its key: `find?` locates it, `eraseP` removes it.

* Go's `MaxEntries int` is `maxEntries : Int` (a Go int can be
  negative); `ll.Len() > c.MaxEntries` compares the Nat length cast to
  Int.

* `OnEvicted` is a caller-supplied callback with side effects.  Its
  presence is the flag `hasOnEvicted` (`c.OnEvicted != nil`), and every
  mutating operation returns, besides the new state, the trace of
  `(key, value)` pairs the operation passes to the callback, in call
  order.  `Get` returns `(value, ok)` as an `Option V` plus the new
  state.
-/

namespace LruGo

structure Cache (K V : Type) where
  maxEntries : Int
  hasOnEvicted : Bool
  data : Option (List (K × V))
  deriving DecidableEq

/-- `New(maxEntries)`: empty map and list, `OnEvicted` left nil. -/
def Cache.new (maxEntries : Int) : Cache K V :=
  { maxEntries := maxEntries, hasOnEvicted := false, data := some [] }

/-- The zero value `Cache{}`: nil map, nil list, `MaxEntries` 0, nil callback. -/
def Cache.zeroValue : Cache K V :=
  { maxEntries := 0, hasOnEvicted := false, data := none }

/-- The entries of the recency list, front (most recently used) first;
`[]` when the cache is uninitialized. -/
def Cache.entries (c : Cache K V) : List (K × V) := c.data.getD []

/-- The keys currently held, in recency order (also the key set of the Go map). -/
def Cache.keys (c : Cache K V) : List K := c.entries.map Prod.fst

/-- `Len()`: 0 when `c.cache == nil`, else `c.ll.Len()`. -/
def Cache.len (c : Cache K V) : Nat :=
  match c.data with
  | none => 0
  | some l => l.length

/-- `removeElement(e)`: remove the element `p` from the list, delete its key
from the map, and invoke `OnEvicted` with the entry's key and value if set. -/
def Cache.removeElement [DecidableEq K] (c : Cache K V) (p : K × V) :
    Cache K V × List (K × V) :=
  ({ c with data := some (c.entries.eraseP (fun q => decide (q.1 = p.1))) },
   if c.hasOnEvicted then [p] else [])

/-- `RemoveOldest()`: return if `c.cache == nil`; else remove `ll.Back()` if
the list is non-empty. -/
def Cache.removeOldest [DecidableEq K] (c : Cache K V) :
    Cache K V × List (K × V) :=
  match c.data with
  | none => (c, [])
  | some l =>
    match l.getLast? with
    | none => (c, [])
    | some p => c.removeElement p

/-- `Add(key, value)`: lazily initialize if `c.cache == nil`; if the key is
present, move its element to the front with the updated value and return;
otherwise push a new entry at the front, and if `MaxEntries != 0` and the
list length now exceeds it, call `RemoveOldest`. -/
def Cache.add [DecidableEq K] (c : Cache K V) (k : K) (v : V) :
    Cache K V × List (K × V) :=
  let l := c.entries
  match l.find? (fun q => decide (q.1 = k)) with
  | some p =>
    ({ c with data := some ((p.1, v) :: l.eraseP (fun q => decide (q.1 = k))) }, [])
  | none =>
    let c' : Cache K V := { c with data := some ((k, v) :: l) }
    if c.maxEntries ≠ 0 ∧ c.maxEntries < ((l.length + 1 : Nat) : Int) then
      c'.removeOldest
    else
      (c', [])

/-- `Get(key)`: `(nil, false)` when `c.cache == nil` or the key misses;
on a hit, move the element to the front and return its value with ok. -/
def Cache.get [DecidableEq K] (c : Cache K V) (k : K) :
    Option V × Cache K V :=
  match c.data with
  | none => (none, c)
  | some l =>
    match l.find? (fun q => decide (q.1 = k)) with
    | some p =>
      (some p.2, { c with data := some (p :: l.eraseP (fun q => decide (q.1 = k))) })
    | none => (none, c)

/-- `Remove(key)`: return if `c.cache == nil`; else remove the key's element
if the map holds it. -/
def Cache.remove [DecidableEq K] (c : Cache K V) (k : K) :
    Cache K V × List (K × V) :=
  match c.data with
  | none => (c, [])
  | some l =>
    match l.find? (fun q => decide (q.1 = k)) with
    | some p => c.removeElement p
    | none => (c, [])

/-- `Clear()`: invoke `OnEvicted`, if set, once per stored entry (Go map
iteration order is unspecified; the model uses list order), then set `ll`
and `cache` to nil. -/
def Cache.clear (c : Cache K V) : Cache K V × List (K × V) :=
  ({ c with data := none },
   if c.hasOnEvicted then c.entries else [])

/-- Fold a sequence of `Add` calls over a cache, discarding callback traces. -/
def Cache.addSeq [DecidableEq K] (c : Cache K V) (ops : List (K × V)) : Cache K V :=
  ops.foldl (fun acc p => (acc.add p.1 p.2).1) c

/-- Key uniqueness: the recency list holds at most one entry per key
(equivalently, the Go map and the list are in bijection). -/
def Cache.WF (c : Cache K V) : Prop := c.keys.Nodup

/-- The cache states reachable through the public surface: construction by
`New` or as a zero value, assignment of the public fields `MaxEntries` and
`OnEvicted`, and the methods. -/
inductive Reachable [DecidableEq K] : Cache K V → Prop where
  | new (m : Int) : Reachable (Cache.new m)
  | zeroValue : Reachable Cache.zeroValue
  | setOnEvicted {c : Cache K V} (b : Bool) :
      Reachable c → Reachable { c with hasOnEvicted := b }
  | setMaxEntries {c : Cache K V} (m : Int) :
      Reachable c → Reachable { c with maxEntries := m }
  | add {c : Cache K V} (k : K) (v : V) : Reachable c → Reachable (c.add k v).1
  | get {c : Cache K V} (k : K) : Reachable c → Reachable (c.get k).2
  | remove {c : Cache K V} (k : K) : Reachable c → Reachable (c.remove k).1
  | removeOldest {c : Cache K V} : Reachable c → Reachable c.removeOldest.1
  | clear {c : Cache K V} : Reachable c → Reachable c.clear.1

/-- A capacity-2 cache holding `a → 1`. -/
def sample1 : Cache String Nat := ((Cache.new 2).add "a" 1).1

/-- A capacity-2 cache holding `b → 2` (fresher) and `a → 1`. -/
def sample2 : Cache String Nat := (sample1.add "b" 2).1

/-- `sample2` with an eviction callback configured. -/
def sample2cb : Cache String Nat := { sample2 with hasOnEvicted := true }

/-- A full capacity-1 cache, callback configured, holding `a → 1`. -/
def cap1cb : Cache String Nat :=
  (({ Cache.new 1 with hasOnEvicted := true } : Cache String Nat).add "a" 1).1

/-! ### Basic facts about the embedding -/

variable {K V : Type}

theorem mem_of_getLast?_eq_some {α : Type} {l : List α} {a : α}
    (h : l.getLast? = some a) : a ∈ l := by
  obtain ⟨ys, rfl⟩ := List.getLast?_eq_some_iff.mp h
  simp

theorem map_fst_eraseP [DecidableEq K] (l : List (K × V)) (k : K) :
    (l.eraseP (fun q => decide (q.1 = k))).map Prod.fst
      = (l.map Prod.fst).eraseP (fun a => decide (a = k)) := by
  induction l with
  | nil => rfl
  | cons p t ih =>
    by_cases h : p.1 = k
    · simp [List.eraseP_cons, h]
    · simp [List.eraseP_cons, h, ih]

theorem not_mem_eraseP_self [DecidableEq K] {xs : List K} {k : K} (h : xs.Nodup) :
    k ∉ xs.eraseP (fun a => decide (a = k)) := by
  induction xs with
  | nil => simp
  | cons x t ih =>
    rcases List.nodup_cons.mp h with ⟨hx, ht⟩
    by_cases hxk : x = k
    · subst hxk
      simpa [List.eraseP_cons] using hx
    · have hdx : decide (x = k) = false := by simp [hxk]
      rw [List.eraseP_cons, hdx]
      simp only [cond_false, List.mem_cons]
      rintro (rfl | hmem)
      · exact hxk rfl
      · exact ih ht hmem

theorem find?_eq_some_of_nodup [DecidableEq K] {l : List (K × V)} {k : K} {v : V}
    (hnd : (l.map Prod.fst).Nodup) (hm : (k, v) ∈ l) :
    l.find? (fun q => decide (q.1 = k)) = some (k, v) := by
  induction l with
  | nil => cases hm
  | cons p t ih =>
    rcases List.nodup_cons.mp hnd with ⟨hp, ht⟩
    rcases List.mem_cons.mp hm with rfl | hm'
    · simp [List.find?_cons]
    · have hk : k ∈ t.map Prod.fst := List.mem_map_of_mem Prod.fst hm'
      have hpk : p.1 ≠ k := fun he => hp (he ▸ hk)
      have hdp : decide (p.1 = k) = false := by simp [hpk]
      rw [List.find?_cons, hdp]
      simpa only [cond_false] using ih ht hm'

theorem find?_eq_none_of_not_mem [DecidableEq K] {l : List (K × V)} {k : K}
    (h : k ∉ l.map Prod.fst) : l.find? (fun q => decide (q.1 = k)) = none := by
  rw [List.find?_eq_none]
  intro q hq hk
  exact h ((of_decide_eq_true hk) ▸ List.mem_map_of_mem Prod.fst hq)

theorem not_mem_of_find?_eq_none [DecidableEq K] {l : List (K × V)} {k : K}
    (h : l.find? (fun q => decide (q.1 = k)) = none) : k ∉ l.map Prod.fst := by
  intro hk
  obtain ⟨q, hq, hqk⟩ := List.mem_map.mp hk
  have := List.find?_eq_none.mp h q hq
  simp [hqk] at this

theorem perm_cons_eraseP_of_find? {α : Type} {p : α → Bool} {l : List α} {a : α}
    (h : l.find? p = some a) : (a :: l.eraseP p).Perm l := by
  induction l with
  | nil => cases h
  | cons x t ih =>
    cases hx : p x with
    | true =>
      rw [List.find?_cons, hx] at h
      cases h
      simp [List.eraseP_cons, hx]
    | false =>
      rw [List.find?_cons, hx] at h
      simp only [List.eraseP_cons, hx, cond_false]
      exact (List.Perm.swap x a _).trans ((ih h).cons x)

theorem entries_eq {c : Cache K V} {l : List (K × V)} (hd : c.data = some l) :
    c.entries = l := by
  simp [Cache.entries, hd]

theorem len_eq_length_entries (c : Cache K V) : c.len = c.entries.length := by
  cases hd : c.data <;> simp [Cache.len, Cache.entries, hd]

/-! #### Shape lemmas: each operation's outcome in each branch of the source -/

theorem add_eq_of_find?_some [DecidableEq K] {c : Cache K V} {k : K} {v : V} {p : K × V}
    (h : c.entries.find? (fun q => decide (q.1 = k)) = some p) :
    c.add k v
      = ({ c with data := some ((p.1, v) :: c.entries.eraseP (fun q => decide (q.1 = k))) }, []) := by
  simp only [Cache.add, h]

theorem add_eq_of_find?_none_noevict [DecidableEq K] {c : Cache K V} {k : K} {v : V}
    (hf : c.entries.find? (fun q => decide (q.1 = k)) = none)
    (hcond : ¬(c.maxEntries ≠ 0 ∧ c.maxEntries < ((c.entries.length + 1 : Nat) : Int))) :
    c.add k v = ({ c with data := some ((k, v) :: c.entries) }, []) := by
  simp only [Cache.add, hf]
  rw [if_neg hcond]

theorem add_eq_of_find?_none_evict [DecidableEq K] {c : Cache K V} {k : K} {v : V}
    (hf : c.entries.find? (fun q => decide (q.1 = k)) = none)
    (hcond : c.maxEntries ≠ 0 ∧ c.maxEntries < ((c.entries.length + 1 : Nat) : Int)) :
    c.add k v = ({ c with data := some ((k, v) :: c.entries) } : Cache K V).removeOldest := by
  simp only [Cache.add, hf]
  rw [if_pos hcond]

theorem get_eq_of_data_none [DecidableEq K] {c : Cache K V} (hd : c.data = none) (k : K) :
    c.get k = (none, c) := by
  simp only [Cache.get, hd]

theorem get_eq_of_find?_some [DecidableEq K] {c : Cache K V} {l : List (K × V)}
    {k : K} {p : K × V} (hd : c.data = some l)
    (hf : l.find? (fun q => decide (q.1 = k)) = some p) :
    c.get k = (some p.2, { c with data := some (p :: l.eraseP (fun q => decide (q.1 = k))) }) := by
  simp only [Cache.get, hd, hf]

theorem get_eq_of_find?_none [DecidableEq K] {c : Cache K V} {l : List (K × V)} {k : K}
    (hd : c.data = some l) (hf : l.find? (fun q => decide (q.1 = k)) = none) :
    c.get k = (none, c) := by
  simp only [Cache.get, hd, hf]

theorem remove_eq_of_data_none [DecidableEq K] {c : Cache K V} (hd : c.data = none) (k : K) :
    c.remove k = (c, []) := by
  simp only [Cache.remove, hd]

theorem remove_eq_of_find?_some [DecidableEq K] {c : Cache K V} {l : List (K × V)}
    {k : K} {p : K × V} (hd : c.data = some l)
    (hf : l.find? (fun q => decide (q.1 = k)) = some p) :
    c.remove k = c.removeElement p := by
  simp only [Cache.remove, hd, hf]

theorem remove_eq_of_find?_none [DecidableEq K] {c : Cache K V} {l : List (K × V)} {k : K}
    (hd : c.data = some l) (hf : l.find? (fun q => decide (q.1 = k)) = none) :
    c.remove k = (c, []) := by
  simp only [Cache.remove, hd, hf]

theorem removeOldest_eq_of_data_none [DecidableEq K] {c : Cache K V} (hd : c.data = none) :
    c.removeOldest = (c, []) := by
  simp only [Cache.removeOldest, hd]

theorem removeOldest_eq_of_getLast?_none [DecidableEq K] {c : Cache K V} {l : List (K × V)}
    (hd : c.data = some l) (hl : l.getLast? = none) :
    c.removeOldest = (c, []) := by
  simp only [Cache.removeOldest, hd, hl]

theorem removeOldest_eq_of_getLast?_some [DecidableEq K] {c : Cache K V} {l : List (K × V)}
    {p : K × V} (hd : c.data = some l) (hl : l.getLast? = some p) :
    c.removeOldest = c.removeElement p := by
  simp only [Cache.removeOldest, hd, hl]

theorem entries_mk_some (c : Cache K V) (l : List (K × V)) :
    ({ c with data := some l } : Cache K V).entries = l := rfl

theorem len_mk_some (c : Cache K V) (l : List (K × V)) :
    ({ c with data := some l } : Cache K V).len = l.length := rfl

theorem removeElement_fst_maxEntries [DecidableEq K] (c : Cache K V) (p : K × V) :
    (c.removeElement p).1.maxEntries = c.maxEntries := rfl

theorem removeElement_fst_hasOnEvicted [DecidableEq K] (c : Cache K V) (p : K × V) :
    (c.removeElement p).1.hasOnEvicted = c.hasOnEvicted := rfl

theorem removeOldest_fst_maxEntries [DecidableEq K] (c : Cache K V) :
    c.removeOldest.1.maxEntries = c.maxEntries := by
  cases hd : c.data with
  | none => rw [removeOldest_eq_of_data_none hd]
  | some l =>
    cases hl : l.getLast? with
    | none => rw [removeOldest_eq_of_getLast?_none hd hl]
    | some p => rw [removeOldest_eq_of_getLast?_some hd hl, removeElement_fst_maxEntries]

theorem add_fst_maxEntries [DecidableEq K] (c : Cache K V) (k : K) (v : V) :
    (c.add k v).1.maxEntries = c.maxEntries := by
  cases hf : c.entries.find? (fun q => decide (q.1 = k)) with
  | some p => rw [add_eq_of_find?_some hf]
  | none =>
    by_cases hcond : c.maxEntries ≠ 0 ∧ c.maxEntries < ((c.entries.length + 1 : Nat) : Int)
    · rw [add_eq_of_find?_none_evict hf hcond, removeOldest_fst_maxEntries]
    · rw [add_eq_of_find?_none_noevict hf hcond]

theorem len_removeElement_of_mem [DecidableEq K] {c : Cache K V} {p : K × V}
    (hp : p ∈ c.entries) : (c.removeElement p).1.len = c.len - 1 := by
  have hlen := List.length_eraseP_of_mem hp (p := fun q => decide (q.1 = p.1)) (by simp)
  simp only [Cache.removeElement, len_eq_length_entries, Cache.entries, Option.getD_some]
  exact hlen

theorem len_add_of_find?_some [DecidableEq K] {c : Cache K V} {k : K} {v : V} {p : K × V}
    (hf : c.entries.find? (fun q => decide (q.1 = k)) = some p) :
    (c.add k v).1.len = c.len := by
  rw [add_eq_of_find?_some hf, len_mk_some]
  have hp : p ∈ c.entries := List.mem_of_find?_eq_some hf
  have hlen := List.length_eraseP_of_mem hp (List.find?_some hf)
  have hpos : 0 < c.entries.length := List.length_pos_of_mem hp
  rw [len_eq_length_entries, List.length_cons, hlen]
  omega

theorem len_add_of_mem [DecidableEq K] {c : Cache K V} {k : K} (v : V)
    (hk : k ∈ c.keys) : (c.add k v).1.len = c.len := by
  cases hf : c.entries.find? (fun q => decide (q.1 = k)) with
  | some p => exact len_add_of_find?_some hf
  | none => exact absurd hk (not_mem_of_find?_eq_none hf)

/-! #### Preservation of the key-uniqueness invariant -/

theorem keys_mk_some (c : Cache K V) (l : List (K × V)) :
    ({ c with data := some l } : Cache K V).keys = l.map Prod.fst := rfl

theorem keys_removeElement [DecidableEq K] (c : Cache K V) (p : K × V) :
    (c.removeElement p).1.keys = c.keys.eraseP (fun a => decide (a = p.1)) := by
  simp only [Cache.removeElement, Cache.keys, Cache.entries, Option.getD_some, map_fst_eraseP]

theorem wf_new (m : Int) : (Cache.new (K := K) (V := V) m).WF := by
  simp [Cache.WF, Cache.new, Cache.keys, Cache.entries]

theorem wf_zeroValue : (Cache.zeroValue (K := K) (V := V)).WF := by
  simp [Cache.WF, Cache.zeroValue, Cache.keys, Cache.entries]

theorem Cache.WF.removeElement [DecidableEq K] {c : Cache K V} (h : c.WF) (p : K × V) :
    (c.removeElement p).1.WF := by
  show ((c.removeElement p).1.keys).Nodup
  rw [keys_removeElement]
  exact List.Nodup.sublist (List.eraseP_sublist _) h

theorem Cache.WF.removeOldest [DecidableEq K] {c : Cache K V} (h : c.WF) :
    c.removeOldest.1.WF := by
  cases hd : c.data with
  | none => rw [removeOldest_eq_of_data_none hd]; exact h
  | some l =>
    cases hl : l.getLast? with
    | none => rw [removeOldest_eq_of_getLast?_none hd hl]; exact h
    | some p => rw [removeOldest_eq_of_getLast?_some hd hl]; exact h.removeElement p

theorem Cache.WF.get [DecidableEq K] {c : Cache K V} (h : c.WF) (k : K) :
    (c.get k).2.WF := by
  cases hd : c.data with
  | none => rw [get_eq_of_data_none hd]; exact h
  | some l =>
    cases hf : l.find? (fun q => decide (q.1 = k)) with
    | none => rw [get_eq_of_find?_none hd hf]; exact h
    | some p =>
      rw [get_eq_of_find?_some hd hf]
      show ((p :: l.eraseP (fun q => decide (q.1 = k))).map Prod.fst).Nodup
      have hk : p.1 = k := by have := List.find?_some hf; simpa using this
      have hnd : (l.map Prod.fst).Nodup := by
        have := entries_eq hd; rw [Cache.WF, Cache.keys, this] at h; exact h
      rw [List.map_cons, map_fst_eraseP, hk]
      exact List.nodup_cons.mpr ⟨not_mem_eraseP_self hnd,
        List.Nodup.sublist (List.eraseP_sublist _) hnd⟩

theorem Cache.WF.add [DecidableEq K] {c : Cache K V} (h : c.WF) (k : K) (v : V) :
    (c.add k v).1.WF := by
  cases hf : c.entries.find? (fun q => decide (q.1 = k)) with
  | some p =>
    rw [add_eq_of_find?_some hf]
    show (((p.1, v) :: c.entries.eraseP (fun q => decide (q.1 = k))).map Prod.fst).Nodup
    have hk : p.1 = k := by have := List.find?_some hf; simpa using this
    rw [List.map_cons, map_fst_eraseP, hk]
    exact List.nodup_cons.mpr ⟨not_mem_eraseP_self h,
      List.Nodup.sublist (List.eraseP_sublist _) h⟩
  | none =>
    have hk : k ∉ c.keys := not_mem_of_find?_eq_none hf
    have hwf' : ({ c with data := some ((k, v) :: c.entries) } : Cache K V).WF := by
      show (((k, v) :: c.entries).map Prod.fst).Nodup
      exact List.nodup_cons.mpr ⟨hk, h⟩
    by_cases hcond : c.maxEntries ≠ 0 ∧ c.maxEntries < ((c.entries.length + 1 : Nat) : Int)
    · rw [add_eq_of_find?_none_evict hf hcond]; exact hwf'.removeOldest
    · rw [add_eq_of_find?_none_noevict hf hcond]; exact hwf'

theorem Cache.WF.remove [DecidableEq K] {c : Cache K V} (h : c.WF) (k : K) :
    (c.remove k).1.WF := by
  cases hd : c.data with
  | none => rw [remove_eq_of_data_none hd]; exact h
  | some l =>
    cases hf : l.find? (fun q => decide (q.1 = k)) with
    | none => rw [remove_eq_of_find?_none hd hf]; exact h
    | some p => rw [remove_eq_of_find?_some hd hf]; exact h.removeElement p

theorem Cache.WF.clear {c : Cache K V} : c.clear.1.WF := by
  simp [Cache.clear, Cache.WF, Cache.keys, Cache.entries]

theorem reachable_wf [DecidableEq K] {c : Cache K V} (h : Reachable c) : c.WF := by
  induction h with
  | new m => exact wf_new m
  | zeroValue => exact wf_zeroValue
  | setOnEvicted b _ ih => exact ih
  | setMaxEntries m _ ih => exact ih
  | add k v _ ih => exact ih.add k v
  | get k _ ih => exact ih.get k
  | remove k _ ih => exact ih.remove k
  | removeOldest _ ih => exact ih.removeOldest
  | clear _ ih => exact Cache.WF.clear

/-! ### Capacity invariant -/

theorem len_add_le [DecidableEq K] {c : Cache K V} (k : K) (v : V)
    (hm : 0 < c.maxEntries) (h : (c.len : Int) ≤ c.maxEntries) :
    ((c.add k v).1.len : Int) ≤ c.maxEntries := by
  have h' : (c.entries.length : Int) ≤ c.maxEntries := by
    rw [len_eq_length_entries] at h; exact h
  cases hf : c.entries.find? (fun q => decide (q.1 = k)) with
  | some p => rw [len_add_of_find?_some hf, len_eq_length_entries]; exact h'
  | none =>
    by_cases hcond : c.maxEntries ≠ 0 ∧ c.maxEntries < ((c.entries.length + 1 : Nat) : Int)
    · rw [add_eq_of_find?_none_evict hf hcond]
      have hd : ({ c with data := some ((k, v) :: c.entries) } : Cache K V).data
          = some ((k, v) :: c.entries) := rfl
      cases hl : ((k, v) :: c.entries).getLast? with
      | none => exact absurd (List.getLast?_eq_none_iff.mp hl) (List.cons_ne_nil _ _)
      | some p =>
        rw [removeOldest_eq_of_getLast?_some hd hl]
        have hp : p ∈ ({ c with data := some ((k, v) :: c.entries) } : Cache K V).entries := by
          rw [entries_eq hd]; exact mem_of_getLast?_eq_some hl
        rw [len_removeElement_of_mem hp, len_mk_some, List.length_cons]
        omega
    · rw [add_eq_of_find?_none_noevict hf hcond, len_mk_some, List.length_cons]
      have hB : ¬(c.maxEntries < ((c.entries.length + 1 : Nat) : Int)) :=
        fun hb => hcond ⟨ne_of_gt hm, hb⟩
      omega

theorem addSeq_cons [DecidableEq K] (c : Cache K V) (p : K × V) (t : List (K × V)) :
    c.addSeq (p :: t) = ((c.add p.1 p.2).1).addSeq t := rfl

theorem addSeq_invariant [DecidableEq K] {m : Int} (hm : 0 < m) :
    ∀ (ops : List (K × V)) (c : Cache K V), c.maxEntries = m → (c.len : Int) ≤ m →
      (c.addSeq ops).maxEntries = m ∧ ((c.addSeq ops).len : Int) ≤ m := by
  intro ops
  induction ops with
  | nil => exact fun c h1 h2 => ⟨h1, h2⟩
  | cons p t ih =>
    intro c h1 h2
    have hmax := add_fst_maxEntries c p.1 p.2
    have hlen := len_add_le (c := c) p.1 p.2 (by rw [h1]; exact hm) (by rw [h1]; exact h2)
    rw [addSeq_cons]
    exact ih _ (by rw [hmax, h1]) (by rw [← h1]; exact hlen)

/-- C1: for every sequence of `Add` calls on a cache built by `New(c)` with
`c > 0`, after each `Add` call returns `Len() <= c`; the bound holds at every
intermediate state, so eviction is synchronous within the exceeding `Add`,
never deferred. -/
theorem c1_capacity_bound [DecidableEq K] (m : Int) (hm : 0 < m) (ops : List (K × V)) :
    (((Cache.new (K := K) (V := V) m).addSeq ops).len : Int) ≤ m := by
  refine (addSeq_invariant hm ops _ rfl ?_).2
  show ((0 : Nat) : Int) ≤ m
  simpa using hm.le

/-- Witness for C1 at capacity 2 and three insertions. -/
theorem c1_capacity_bound_witness :
    (0 : Int) < 2 ∧
      (((Cache.new (K := String) (V := Nat) 2).addSeq
          [("a", 1), ("b", 2), ("c", 3)]).len : Int) ≤ 2 :=
  ⟨by decide, c1_capacity_bound 2 (by decide) [("a", 1), ("b", 2), ("c", 3)]⟩

/-- C2: on an empty capacity-2 cache, `Add("a",1); Add("b",2); Get("a")`
returns `(1, true)` and promotes `"a"`; a following `Add("c",3)` evicts
`"b"`, after which `Len() == 2`, `Get("b")` is absent (and mutates nothing),
`Get("a")` returns `(1, true)` and `Get("c")` returns `(3, true)`. -/
theorem c2_concrete_scenario :
    let c0 : Cache String Nat := Cache.new 2
    let cab := ((c0.add "a" 1).1.add "b" 2).1
    let g := cab.get "a"
    let c4 := (g.2.add "c" 3).1
    g.1 = some 1 ∧ g.2.entries.head? = some ("a", 1) ∧
    c4.entries = [("c", 3), ("a", 1)] ∧ c4.len = 2 ∧
    (c4.get "b").1 = none ∧ (c4.get "b").2 = c4 ∧
    (c4.get "a").1 = some 1 ∧ ((c4.get "a").2.get "c").1 = some 3 := by
  decide

/-- C8: with capacity 1 and a configured eviction callback, `Add(a,1)` then
`Add(b,2)` fires the callback exactly once over the whole sequence, with the
pair `(a, 1)`. -/
theorem c8_eviction_callback :
    let e0 : Cache String Nat := { Cache.new 1 with hasOnEvicted := true }
    (e0.add "a" 1).2 = [] ∧ ((e0.add "a" 1).1.add "b" 2).2 = [("a", 1)] := by
  decide

/-! ### Recency on write -/

theorem getLast?_cons_of_ne_nil {α : Type} (a : α) {t : List α} (h : t ≠ []) :
    (a :: t).getLast? = t.getLast? := by
  cases t with
  | nil => exact absurd rfl h
  | cons b u => exact List.getLast?_cons_cons

/-- After `Add(k, v)` on a well-formed cache whose result is non-empty, the
recency list starts with the `(k, v)` entry, `k` occurs nowhere later, and
the remainder comes from the previous list. -/
theorem add_data_shape [DecidableEq K] {c : Cache K V} {k : K} {v : V} (hwf : c.WF)
    (hlen : 0 < (c.add k v).1.len) :
    ∃ t, (c.add k v).1.data = some ((k, v) :: t) ∧ k ∉ t.map Prod.fst ∧ t ⊆ c.entries := by
  cases hf : c.entries.find? (fun q => decide (q.1 = k)) with
  | some p =>
    have hk : p.1 = k := by have := List.find?_some hf; simpa using this
    refine ⟨c.entries.eraseP (fun q => decide (q.1 = k)), ?_, ?_, ?_⟩
    · rw [add_eq_of_find?_some hf, hk]
    · rw [map_fst_eraseP]; exact not_mem_eraseP_self hwf
    · exact fun x hx => (List.eraseP_sublist _).subset hx
  | none =>
    have hk : k ∉ c.entries.map Prod.fst := not_mem_of_find?_eq_none hf
    by_cases hcond : c.maxEntries ≠ 0 ∧ c.maxEntries < ((c.entries.length + 1 : Nat) : Int)
    · have hd : ({ c with data := some ((k, v) :: c.entries) } : Cache K V).data
          = some ((k, v) :: c.entries) := rfl
      rw [add_eq_of_find?_none_evict hf hcond] at hlen ⊢
      by_cases hce : c.entries = []
      · exfalso
        have hl1 : ((k, v) :: c.entries).getLast? = some (k, v) := by rw [hce]; rfl
        rw [removeOldest_eq_of_getLast?_some hd hl1] at hlen
        have h0 : (({ c with data := some ((k, v) :: c.entries) } : Cache K V).removeElement
            (k, v)).1.len = 0 := by
          simp [Cache.removeElement, len_mk_some, entries_mk_some, hce, List.eraseP_cons]
        omega
      · obtain ⟨pb, hpb⟩ : ∃ pb, c.entries.getLast? = some pb := by
          cases hx : c.entries.getLast? with
          | none => exact absurd (List.getLast?_eq_none_iff.mp hx) hce
          | some x => exact ⟨x, rfl⟩
        have hl2 : ((k, v) :: c.entries).getLast? = some pb := by
          rw [getLast?_cons_of_ne_nil _ hce, hpb]
        rw [removeOldest_eq_of_getLast?_some hd hl2]
        have hpbm : pb ∈ c.entries := mem_of_getLast?_eq_some hpb
        have hpbk : pb.1 ≠ k := fun he => hk (he ▸ List.mem_map_of_mem Prod.fst hpbm)
        refine ⟨c.entries.eraseP (fun q => decide (q.1 = pb.1)), ?_, ?_, ?_⟩
        · show some ((({ c with data := some ((k, v) :: c.entries) } : Cache K V).entries).eraseP
              (fun q => decide (q.1 = pb.1))) = _
          rw [entries_mk_some, List.eraseP_cons]
          have hdk : (decide (((k, v) : K × V).1 = pb.1)) = false :=
            decide_eq_false (Ne.symm hpbk)
          rw [hdk, cond_false]
        · intro hmem
          exact hk (((List.eraseP_sublist _).map Prod.fst).subset hmem)
        · exact fun x hx => (List.eraseP_sublist _).subset hx
    · rw [add_eq_of_find?_none_noevict hf hcond]
      exact ⟨c.entries, rfl, hk, fun x hx => hx⟩

/-- C3: on a well-formed cache, immediately after `Add(k, v)`, if the cache
holds more than one entry then the back of the recency list is not `k`, so a
following `RemoveOldest()` never evicts `k`: `k` is still among the keys. -/
theorem c3_recency_on_write [DecidableEq K] (c : Cache K V) (k : K) (v : V)
    (hwf : c.WF) (hlen : 1 < ((c.add k v).1).len) :
    (∀ p, ((c.add k v).1).entries.getLast? = some p → p.1 ≠ k) ∧
    k ∈ (((c.add k v).1).removeOldest).1.keys := by
  obtain ⟨t, hdata, hkt, hsub⟩ := add_data_shape (k := k) (v := v) hwf (by omega)
  have hent : (c.add k v).1.entries = (k, v) :: t := entries_eq hdata
  have hlent : (c.add k v).1.len = t.length + 1 := by
    rw [len_eq_length_entries, hent, List.length_cons]
  have htne : t ≠ [] := by
    intro h; rw [h] at hlent; simp at hlent; omega
  have hback : ∀ p, ((c.add k v).1).entries.getLast? = some p → p.1 ≠ k := by
    intro p hp he
    rw [hent, getLast?_cons_of_ne_nil _ htne] at hp
    exact hkt (he ▸ List.mem_map_of_mem Prod.fst (mem_of_getLast?_eq_some hp))
  refine ⟨hback, ?_⟩
  cases hl : ((k, v) :: t).getLast? with
  | none => exact absurd (List.getLast?_eq_none_iff.mp hl) (List.cons_ne_nil _ _)
  | some p =>
    have hpk : p.1 ≠ k := hback p (by rw [hent, hl])
    rw [removeOldest_eq_of_getLast?_some hdata hl, keys_removeElement]
    have hkk : k ∈ (c.add k v).1.keys := by
      rw [Cache.keys, hent, List.map_cons]; exact List.mem_cons_self k _
    exact (List.mem_eraseP_of_neg (by simpa using Ne.symm hpk)).mpr hkk

/-- Witness for C3: a two-entry cache after adding a fresh key. -/
theorem c3_recency_on_write_witness :
    sample1.WF ∧ 1 < ((sample1.add "b" 2).1).len ∧
      ("a" : String) ≠ "b" ∧ "b" ∈ ((sample1.add "b" 2).1).removeOldest.1.keys := by
  have h : sample1.WF := by unfold Cache.WF; decide
  refine ⟨h, by decide, ?_, ?_⟩
  · exact (c3_recency_on_write sample1 "b" 2 h (by decide)).1 ("a", 1) (by decide)
  · exact (c3_recency_on_write sample1 "b" 2 h (by decide)).2

/-! ### Key uniqueness on reachable states -/

/-- C4: every reachable cache state holds at most one live entry per key: the
recency list's keys are pairwise distinct (and the Go map, being keyed, maps
each key to that unique element); `Add` of an existing key updates in place
and leaves the entry count unchanged. -/
theorem c4_key_uniqueness [DecidableEq K] (c : Cache K V) (h : Reachable c) :
    c.keys.Nodup ∧ ∀ k v, k ∈ c.keys → ((c.add k v).1).len = c.len :=
  ⟨reachable_wf h, fun _ v hk => len_add_of_mem v hk⟩

/-- Witness for C4 at a concrete reachable two-entry state. -/
theorem c4_key_uniqueness_witness :
    sample2.keys.Nodup ∧ ((sample2.add "a" 7).1).len = sample2.len := by
  have h : Reachable sample2 :=
    Reachable.add "b" 2 (Reachable.add "a" 1 (Reachable.new 2))
  exact ⟨(c4_key_uniqueness sample2 h).1,
    (c4_key_uniqueness sample2 h).2 "a" 7 (by decide)⟩

/-! ### Lookup -/

/-- C5: on a well-formed cache, `Get(k)` on a hit returns the stored value
with ok and moves the entry to the front of the recency list (same entries,
reordered, other fields untouched); on a miss it returns no value and leaves
the state entirely unchanged. -/
theorem c5_get_spec [DecidableEq K] (c : Cache K V) (k : K) (hwf : c.WF) :
    (∀ v, (k, v) ∈ c.entries →
        (c.get k).1 = some v ∧
        (c.get k).2.entries = (k, v) :: c.entries.eraseP (fun q => decide (q.1 = k)) ∧
        (c.get k).2.entries.Perm c.entries ∧
        (c.get k).2.maxEntries = c.maxEntries ∧
        (c.get k).2.hasOnEvicted = c.hasOnEvicted) ∧
    (k ∉ c.keys → c.get k = (none, c)) := by
  constructor
  · intro v hv
    cases hd : c.data with
    | none => rw [Cache.entries, hd] at hv; cases hv
    | some l =>
      have hl : c.entries = l := entries_eq hd
      have hnd : (l.map Prod.fst).Nodup := by
        rw [Cache.WF, Cache.keys, hl] at hwf; exact hwf
      have hf : l.find? (fun q => decide (q.1 = k)) = some (k, v) :=
        find?_eq_some_of_nodup hnd (hl ▸ hv)
      rw [get_eq_of_find?_some hd hf]
      refine ⟨rfl, ?_, ?_, rfl, rfl⟩
      · rw [entries_mk_some, hl]
      · rw [entries_mk_some, hl]
        exact perm_cons_eraseP_of_find? hf
  · intro hk
    cases hd : c.data with
    | none => exact get_eq_of_data_none hd k
    | some l =>
      refine get_eq_of_find?_none hd (find?_eq_none_of_not_mem ?_)
      rw [Cache.keys, entries_eq hd] at hk
      exact hk

/-- Witness for C5: a hit on `a` and a miss on `zz`. -/
theorem c5_get_spec_witness :
    ((sample2.get "a").1 = some 1 ∧
      (sample2.get "a").2.entries
        = ("a", 1) :: sample2.entries.eraseP (fun q => decide (q.1 = "a")) ∧
      (sample2.get "a").2.entries.Perm sample2.entries ∧
      (sample2.get "a").2.maxEntries = sample2.maxEntries ∧
      (sample2.get "a").2.hasOnEvicted = sample2.hasOnEvicted) ∧
    sample2.get "zz" = (none, sample2) := by
  have h : sample2.WF := by unfold Cache.WF; decide
  exact ⟨(c5_get_spec sample2 "a" h).1 1 (by decide),
    (c5_get_spec sample2 "zz" h).2 (by decide)⟩

/-! ### Removal -/

/-- C6: on a well-formed cache, `Remove(k)` with `k` present deletes exactly
`k`'s entry (gone from the key set, length drops by one, every other entry
kept) and passes that entry's key and value to the callback exactly once when
one is configured; with `k` absent it is a no-op, not an error: state
unchanged, no callback invocation. -/
theorem c6_remove_spec [DecidableEq K] (c : Cache K V) (k : K) (hwf : c.WF) :
    (k ∉ c.keys → c.remove k = (c, [])) ∧
    (∀ v, (k, v) ∈ c.entries →
        (c.remove k).1.entries = c.entries.eraseP (fun q => decide (q.1 = k)) ∧
        k ∉ (c.remove k).1.keys ∧
        (c.remove k).1.len = c.len - 1 ∧
        (∀ q ∈ c.entries, q.1 ≠ k → q ∈ (c.remove k).1.entries) ∧
        (c.remove k).2 = (if c.hasOnEvicted then [(k, v)] else []) ∧
        (c.remove k).1.maxEntries = c.maxEntries ∧
        (c.remove k).1.hasOnEvicted = c.hasOnEvicted) := by
  constructor
  · intro hk
    cases hd : c.data with
    | none => exact remove_eq_of_data_none hd k
    | some l =>
      refine remove_eq_of_find?_none hd (find?_eq_none_of_not_mem ?_)
      rw [Cache.keys, entries_eq hd] at hk
      exact hk
  · intro v hv
    cases hd : c.data with
    | none => rw [Cache.entries, hd] at hv; cases hv
    | some l =>
      have hl : c.entries = l := entries_eq hd
      have hnd : (l.map Prod.fst).Nodup := by
        rw [Cache.WF, Cache.keys, hl] at hwf; exact hwf
      have hf : l.find? (fun q => decide (q.1 = k)) = some (k, v) :=
        find?_eq_some_of_nodup hnd (hl ▸ hv)
      rw [remove_eq_of_find?_some hd hf]
      refine ⟨rfl, ?_, len_removeElement_of_mem hv, ?_, rfl, rfl, rfl⟩
      · rw [keys_removeElement]
        simpa using not_mem_eraseP_self (k := k) hwf
      · intro q hq hqk
        show q ∈ c.entries.eraseP (fun r => decide (r.1 = ((k, v) : K × V).1))
        exact (List.mem_eraseP_of_neg (by simpa using hqk)).mpr hq

/-- Witness for C6: removing the present key `a` and the absent key `zz`. -/
theorem c6_remove_spec_witness :
    sample2cb.remove "zz" = (sample2cb, []) ∧
    (sample2cb.remove "a").1.entries
      = sample2cb.entries.eraseP (fun q => decide (q.1 = "a")) ∧
    "a" ∉ (sample2cb.remove "a").1.keys ∧
    (sample2cb.remove "a").1.len = sample2cb.len - 1 ∧
    (sample2cb.remove "a").2
      = (if sample2cb.hasOnEvicted then [("a", 1)] else []) := by
  have h : sample2cb.WF := by unfold Cache.WF; decide
  refine ⟨(c6_remove_spec sample2cb "zz" h).1 (by decide), ?_, ?_, ?_, ?_⟩
  · exact ((c6_remove_spec sample2cb "a" h).2 1 (by decide)).1
  · exact ((c6_remove_spec sample2cb "a" h).2 1 (by decide)).2.1
  · exact ((c6_remove_spec sample2cb "a" h).2 1 (by decide)).2.2.1
  · exact ((c6_remove_spec sample2cb "a" h).2 1 (by decide)).2.2.2.2.1

/-! ### Clear -/

/-- C7: `Clear()` resets the cache to the empty state: `Len()` is 0, the
structures are nil, every later lookup misses; the configured callback is
invoked exactly once per entry present at the call (order unspecified, stated
as a permutation); with no callback configured nothing is invoked. -/
theorem c7_clear_resets [DecidableEq K] (c : Cache K V) :
    c.clear.1.len = 0 ∧ c.clear.1.data = none ∧
    (∀ k, c.clear.1.get k = (none, c.clear.1)) ∧
    (c.hasOnEvicted = true → c.clear.2.Perm c.entries) ∧
    (c.hasOnEvicted = false → c.clear.2 = []) := by
  refine ⟨rfl, rfl, ?_, ?_, ?_⟩
  · intro k
    exact get_eq_of_data_none rfl k
  · intro h
    simp [Cache.clear, h]
  · intro h
    simp [Cache.clear, h]

/-- Witness for C7 on a two-entry cache with a configured callback. -/
theorem c7_clear_resets_witness :
    sample2cb.clear.1.len = 0 ∧ sample2cb.clear.1.data = none ∧
    sample2cb.clear.1.get "a" = (none, sample2cb.clear.1) ∧
    sample2cb.clear.2.Perm sample2cb.entries :=
  ⟨(c7_clear_resets sample2cb).1, (c7_clear_resets sample2cb).2.1,
    (c7_clear_resets sample2cb).2.2.1 "a",
    (c7_clear_resets sample2cb).2.2.2.1 rfl⟩

/-! ### Nil safety -/

/-- C9: every operation is safe on a cache whose structures are uninitialized
(a zero-value `Cache`, or one after `Clear()`): `Get` misses and mutates
nothing, `Len` is 0, `Remove` and `RemoveOldest` are no-ops, and `Add`
lazily re-initializes the index and list and inserts normally (under the
documented non-negative capacity). -/
theorem c9_nil_safety [DecidableEq K] (c : Cache K V) (k : K) (v : V)
    (h : c.data = none) (hm : 0 ≤ c.maxEntries) :
    c.get k = (none, c) ∧ c.len = 0 ∧ c.remove k = (c, []) ∧
    c.removeOldest = (c, []) ∧
    (c.add k v).1.data = some [(k, v)] ∧ (c.add k v).2 = [] := by
  have hent : c.entries = [] := by rw [Cache.entries, h]; rfl
  have hf : c.entries.find? (fun q => decide (q.1 = k)) = none := by rw [hent]; rfl
  have hcond : ¬(c.maxEntries ≠ 0 ∧ c.maxEntries < ((c.entries.length + 1 : Nat) : Int)) := by
    rw [hent]
    simp only [List.length_nil]
    rintro ⟨h1, h2⟩
    omega
  refine ⟨get_eq_of_data_none h k, ?_, remove_eq_of_data_none h k,
    removeOldest_eq_of_data_none h, ?_, ?_⟩
  · simp [Cache.len, h]
  · rw [add_eq_of_find?_none_noevict hf hcond, hent]
  · rw [add_eq_of_find?_none_noevict hf hcond]

/-- Witness for C9 at the zero-value cache. -/
theorem c9_nil_safety_witness :
    (Cache.zeroValue (K := String) (V := Nat)).data = none ∧
    (0 : Int) ≤ (Cache.zeroValue (K := String) (V := Nat)).maxEntries ∧
    ((Cache.zeroValue (K := String) (V := Nat)).get "a"
        = (none, Cache.zeroValue) ∧
      (Cache.zeroValue (K := String) (V := Nat)).len = 0 ∧
      (Cache.zeroValue (K := String) (V := Nat)).remove "a" = (Cache.zeroValue, []) ∧
      (Cache.zeroValue (K := String) (V := Nat)).removeOldest = (Cache.zeroValue, []) ∧
      ((Cache.zeroValue (K := String) (V := Nat)).add "a" 1).1.data = some [("a", 1)] ∧
      ((Cache.zeroValue (K := String) (V := Nat)).add "a" 1).2 = []) :=
  ⟨rfl, by decide, c9_nil_safety Cache.zeroValue "a" 1 rfl (by decide)⟩

/-! ### When Add fires the callback -/

/-- C10: with a configured callback and a well-formed cache, `Add(k, v)`
fires the callback iff `k` was absent, `MaxEntries` is nonzero, and the
insertion made the count exceed `MaxEntries`; the single evicted pair is then
exactly the back-most entry at eviction time, and its key is gone afterwards;
`Add` of a present key never fires the callback, never evicts, and leaves
`Len()` unchanged. -/
theorem c10_add_eviction_iff [DecidableEq K] (c : Cache K V) (k : K) (v : V)
    (hwf : c.WF) (hcb : c.hasOnEvicted = true) :
    ((c.add k v).2 ≠ [] ↔
      k ∉ c.keys ∧ c.maxEntries ≠ 0 ∧ c.maxEntries < (c.len : Int) + 1) ∧
    (∀ p, (c.add k v).2 = [p] →
      ((k, v) :: c.entries).getLast? = some p ∧ p.1 ∉ (c.add k v).1.keys) ∧
    (k ∈ c.keys → (c.add k v).2 = [] ∧ (c.add k v).1.len = c.len) := by
  have hlen1 : ((c.entries.length + 1 : Nat) : Int) = (c.len : Int) + 1 := by
    rw [len_eq_length_entries]; omega
  cases hf : c.entries.find? (fun q => decide (q.1 = k)) with
  | some p0 =>
    have hk0 : p0.1 = k := by have := List.find?_some hf; simpa using this
    have hkm : k ∈ c.keys :=
      hk0 ▸ List.mem_map_of_mem Prod.fst (List.mem_of_find?_eq_some hf)
    rw [add_eq_of_find?_some hf]
    refine ⟨⟨fun hne => absurd rfl hne, fun hrhs => absurd hkm hrhs.1⟩, ?_, ?_⟩
    · intro p hp
      cases hp
    · refine fun _ => ⟨rfl, ?_⟩
      rw [← add_eq_of_find?_some (v := v) hf]
      exact len_add_of_find?_some hf
  | none =>
    have hkm : k ∉ c.keys := not_mem_of_find?_eq_none hf
    by_cases hcond : c.maxEntries ≠ 0 ∧ c.maxEntries < ((c.entries.length + 1 : Nat) : Int)
    · have hd : ({ c with data := some ((k, v) :: c.entries) } : Cache K V).data
          = some ((k, v) :: c.entries) := rfl
      obtain ⟨pb, hpb⟩ : ∃ pb, ((k, v) :: c.entries).getLast? = some pb := by
        cases hx : ((k, v) :: c.entries).getLast? with
        | none => exact absurd (List.getLast?_eq_none_iff.mp hx) (List.cons_ne_nil _ _)
        | some x => exact ⟨x, rfl⟩
      rw [add_eq_of_find?_none_evict hf hcond,
        removeOldest_eq_of_getLast?_some hd hpb]
      have hev : (({ c with data := some ((k, v) :: c.entries) } : Cache K V).removeElement
          pb).2 = [pb] := by
        simp [Cache.removeElement, hcb]
      rw [hev]
      refine ⟨⟨fun _ => ⟨hkm, hcond.1, hlen1 ▸ hcond.2⟩, fun _ => by simp⟩, ?_, ?_⟩
      · intro p hp
        cases hp
        refine ⟨hpb, ?_⟩
        rw [keys_removeElement]
        have hnd : ({ c with data := some ((k, v) :: c.entries) } : Cache K V).keys.Nodup := by
          rw [keys_mk_some, List.map_cons]
          exact List.nodup_cons.mpr ⟨hkm, hwf⟩
        exact not_mem_eraseP_self hnd
      · exact fun hk => absurd hk hkm
    · rw [add_eq_of_find?_none_noevict hf hcond]
      refine ⟨⟨fun hne => absurd rfl hne, ?_⟩, ?_, ?_⟩
      · rintro ⟨_, h1, h2⟩
        exact absurd ⟨h1, hlen1 ▸ h2⟩ hcond
      · intro p hp
        cases hp
      · exact fun hk => absurd hk hkm

/-- Witness for C10: a full capacity-1 cache; adding a fresh key evicts the
back entry and fires the callback, re-adding the present key does not. -/
theorem c10_add_eviction_iff_witness :
    (cap1cb.add "b" 2).2 ≠ [] ∧
    ((("b", 2) :: cap1cb.entries).getLast? = some ("a", 1) ∧
      "a" ∉ (cap1cb.add "b" 2).1.keys) ∧
    ((cap1cb.add "a" 9).2 = [] ∧ (cap1cb.add "a" 9).1.len = cap1cb.len) := by
  have h : cap1cb.WF := by unfold Cache.WF; decide
  refine ⟨?_, ?_, ?_⟩
  · exact (c10_add_eviction_iff cap1cb "b" 2 h rfl).1.mpr (by decide)
  · exact (c10_add_eviction_iff cap1cb "b" 2 h rfl).2.1 ("a", 1) (by decide)
  · exact (c10_add_eviction_iff cap1cb "a" 9 h rfl).2.2 (by decide)

end LruGo
